import Mathlib

/-!
Verification of the KNN classification-and-evaluation routine of the
MLClassification/KNN notebook.

The notebook delegates model fitting, prediction and scoring to a
machine-learning library; the specification document describes the minimal
self-contained KNN classification-and-evaluation routine implied by the
notebook.  The definitions below embed that routine: features are rational
vectors, labels are naturals (the notebook maps positions C, F, G to 0, 1, 2),
and distances are compared through squared Euclidean distance, which orders
points exactly as Euclidean distance does.
-/

namespace KNNSpec

abbrev Vec := List ℚ

/-- Modelled from the spec: the squared Euclidean distance between two
feature vectors, sum over i of (a_i − b_i)².  Euclidean distance is its
square root; comparisons of distances are equivalent to comparisons of
squared distances. -/
def sqDist (a b : Vec) : ℚ :=
  (List.zipWith (fun x y => (x - y) ^ 2) a b).sum

/-- Modelled from the spec: one scoring row per training example, holding its
index in the training set, its squared distance to the query, and its label. -/
def neighborRows (train : List Vec) (lbls : List ℕ) (q : Vec) :
    List (ℕ × ℚ × ℕ) :=
  (List.range train.length).map
    (fun i => (i, sqDist q (train.getD i []), lbls.getD i 0))

/-- Modelled from the spec: the ordering used to rank training examples:
smaller distance first, and at equal distance the earlier index in the
training set (stable first-occurrence tie-break). -/
def distR (a b : ℕ × ℚ × ℕ) : Prop :=
  a.2.1 < b.2.1 ∨ (a.2.1 = b.2.1 ∧ a.1 ≤ b.1)

instance : DecidableRel distR := fun a b => by
  unfold distR; infer_instance

instance : IsTotal (ℕ × ℚ × ℕ) distR := by
  constructor
  intro a b
  unfold distR
  rcases lt_trichotomy a.2.1 b.2.1 with h | h | h
  · exact Or.inl (Or.inl h)
  · rcases Nat.le_total a.1 b.1 with h1 | h1
    · exact Or.inl (Or.inr ⟨h, h1⟩)
    · exact Or.inr (Or.inr ⟨h.symm, h1⟩)
  · exact Or.inr (Or.inl h)

instance : IsTrans (ℕ × ℚ × ℕ) distR := by
  constructor
  intro a b c hab hbc
  unfold distR at *
  rcases hab with h1 | ⟨h1, h1i⟩ <;> rcases hbc with h2 | ⟨h2, h2i⟩
  · exact Or.inl (h1.trans h2)
  · exact Or.inl (h2 ▸ h1)
  · exact Or.inl (h1 ▸ h2)
  · exact Or.inr ⟨h1.trans h2, h1i.trans h2i⟩

/-- Modelled from the spec: the k training examples with smallest distance to
the query, ties at the boundary broken by first occurrence in the training
set. -/
def nearest (k : ℕ) (train : List Vec) (lbls : List ℕ) (q : Vec) :
    List (ℕ × ℚ × ℕ) :=
  (List.insertionSort distR (neighborRows train lbls q)).take k

/-- Modelled from the spec: the labels of the k nearest neighbors. -/
def neighborLabels (k : ℕ) (train : List Vec) (lbls : List ℕ) (q : Vec) :
    List ℕ :=
  (nearest k train lbls q).map (fun r => r.2.2)

/-- Modelled from the spec: the voting order among candidate labels: higher
vote count first, ties among labels broken by lowest label value. -/
def voteR (votes : List ℕ) (a b : ℕ) : Prop :=
  votes.count b < votes.count a ∨ (votes.count a = votes.count b ∧ a ≤ b)

instance (votes : List ℕ) : DecidableRel (voteR votes) := fun a b => by
  unfold voteR; infer_instance

instance (votes : List ℕ) : IsTotal ℕ (voteR votes) := by
  constructor
  intro a b
  unfold voteR
  omega

instance (votes : List ℕ) : IsTrans ℕ (voteR votes) := by
  constructor
  intro a b c hab hbc
  unfold voteR at *
  omega

/-- Modelled from the spec: the label with the highest vote count, ties among
labels broken by lowest label value. -/
def voteWinner (votes : List ℕ) : ℕ :=
  (List.insertionSort (voteR votes) votes).headD 0

/-- Modelled from the spec: predict computes the distance from the query to
every stored training vector, selects the k nearest, and returns the label
with the highest vote count among them. -/
def predict (k : ℕ) (train : List Vec) (lbls : List ℕ) (q : Vec) : ℕ :=
  voteWinner (neighborLabels k train lbls q)

/-- Modelled from the spec: predict_proba maps each label of the training set
to (count of that label among the k nearest) / k. -/
def predictProba (k : ℕ) (train : List Vec) (lbls : List ℕ) (q : Vec) :
    List (ℕ × ℚ) :=
  lbls.dedup.map
    (fun c => (c, ((neighborLabels k train lbls q).count c : ℚ) / (k : ℚ)))

/-- Modelled from the spec: the error kinds of the routine. -/
inductive KNNError where
  | invalidArgument
  | insufficientData
  | degenerateFeature
deriving DecidableEq

/-- Modelled from the spec: the model state stores k and the training data. -/
structure KNNModel where
  k : ℕ
  features : List Vec
  labels : List ℕ
deriving DecidableEq

/-- Modelled from the spec: fit validates its arguments (k ≤ 0, inconsistent
feature-vector lengths, or a feature/label count mismatch give
InvalidArgument; k larger than the number of training examples gives
InsufficientData, the checks made in this order) and otherwise stores the
features and labels as the model state. -/
def fit (features : List Vec) (labels : List ℕ) (k : ℤ) : Except KNNError KNNModel :=
  if k ≤ 0 then .error .invalidArgument
  else if ¬ (∀ v ∈ features, v.length = (features.headD []).length) then
    .error .invalidArgument
  else if features.length ≠ labels.length then .error .invalidArgument
  else if (features.length : ℤ) < k then .error .insufficientData
  else .ok ⟨k.toNat, features, labels⟩

/-- Embedded from the notebook (score = float(sum(pred == y)) / len(y)),
with the validation the spec adds: accuracy is the number of positions where
the prediction equals the true label, divided by the total number of
positions; InvalidArgument when the sequences differ in length or are
empty (modelled from the spec). -/
def accuracy (pred truth : List ℕ) : Except KNNError ℚ :=
  if pred.length ≠ truth.length ∨ pred.length = 0 then .error .invalidArgument
  else .ok (((pred.zip truth).countP (fun p => p.1 == p.2) : ℚ) / (pred.length : ℚ))

/-- The strict lexicographic order Python uses to compare (accuracy, k)
tuples. -/
def tupleLt (a b : ℚ × ℕ) : Prop :=
  a.1 < b.1 ∨ (a.1 = b.1 ∧ a.2 < b.2)

instance : DecidableRel tupleLt := fun a b => by
  unfold tupleLt; infer_instance

/-- Embedded from the notebook: Python max over a list of tuples starts from
the first element and replaces the running maximum exactly when the next
element is strictly greater in lexicographic order. -/
def pyMax : List (ℚ × ℕ) → ℚ × ℕ
  | [] => (0, 0)
  | x :: xs => xs.foldl (fun acc y => if tupleLt acc y then y else acc) x

/-- Embedded from the notebook: max(list(zip(testing_accuracies, k_range)))
selects the lexicographically greatest (accuracy, k) pair; the chosen k is
its second component. -/
def bestK (testingAccuracies : List ℚ) (kRange : List ℕ) : ℕ :=
  (pyMax (testingAccuracies.zip kRange)).2

/-- Column j of a row-major data matrix. -/
def column (j : ℕ) (rows : List Vec) : List ℚ :=
  rows.map (fun v => v.getD j 0)

/-- Modelled from the spec: per-feature mean. -/
def colMean (col : List ℚ) : ℚ :=
  col.sum / (col.length : ℚ)

/-- Modelled from the spec: per-feature population variance, the square of
the standard deviation the scaler divides by. -/
def colVar (col : List ℚ) : ℚ :=
  ((col.map (fun x => (x - colMean col) ^ 2)).sum) / (col.length : ℚ)

/-- Modelled from the spec: FeatureScaler.fit computes the per-feature mean
and standard deviation of the given dataset; the state is recorded as
(mean, variance) pairs, variance being the square of the standard
deviation. -/
def scalerFit (rows : List Vec) : List (ℚ × ℚ) :=
  (List.range (rows.headD []).length).map
    (fun j => (colMean (column j rows), colVar (column j rows)))

/-- Per-feature variances of a row-major data matrix. -/
def colVars (rows : List Vec) : List ℚ :=
  (List.range (rows.headD []).length).map (fun j => colVar (column j rows))

/-- Modelled from the spec: squared Euclidean distance between two points
after standardization, expressed over the raw coordinates: the standardized
difference in column j is ((a_j − μ_j)/σ_j − (b_j − μ_j)/σ_j), whose square
is (a_j − b_j)²/var_j, so each squared difference is weighted by the
reciprocal of the column variance.  A zero-variance column contributes 0
(the column is dropped, one of the policies the spec names). -/
def stdSqDist : List ℚ → List ℚ → List ℚ → ℚ
  | v :: vs, x :: xs, y :: ys => (x - y) ^ 2 / v + stdSqDist vs xs ys
  | _, _, _ => 0

/-- Modelled from the spec: the scoring rows of the standardized pipeline:
the scaler is fit on the training matrix, and distances are taken in the
standardized coordinates. -/
def neighborRowsStd (train : List Vec) (lbls : List ℕ) (q : Vec) :
    List (ℕ × ℚ × ℕ) :=
  (List.range train.length).map
    (fun i => (i, stdSqDist (colVars train) q (train.getD i []), lbls.getD i 0))

/-- Modelled from the spec: predict after standardizing both the training
data and the query with the scaler fit on the training data. -/
def predictStd (k : ℕ) (train : List Vec) (lbls : List ℕ) (q : Vec) : ℕ :=
  voteWinner
    (((List.insertionSort distR (neighborRowsStd train lbls q)).take k).map
      (fun r => r.2.2))

/-- A strictly monotonic positive linear rescaling of feature column j:
x ↦ a·x + b there, other columns unchanged (the notebook rescales pf by
1000 and blk affinely). -/
def rescaleRow (j : ℕ) (a b : ℚ) (v : Vec) : Vec :=
  v.mapIdx (fun i x => if i = j then a * x + b else x)

/-- Modelled from the spec: splitting takes an explicit seed; a linear
congruential generator keys each row index. -/
def lcgKey (seed i : ℕ) : ℕ :=
  (1103515245 * (seed + i) + 12345) % 2147483648

/-- Modelled from the spec: the deterministic row order induced by the seed:
indices ranked by LCG key, ties by index. -/
def splitOrder (n seed : ℕ) : List ℕ :=
  List.insertionSort
    (fun i j => lcgKey seed i < lcgKey seed j ∨ (lcgKey seed i = lcgKey seed j ∧ i ≤ j))
    (List.range n)

/-- Modelled from the spec: the train/test split as a pure function of the
data and the explicit seed; the first quarter of the seeded order is held
out as the test partition (the library default holds out 25%). -/
def trainTestSplit (X : List Vec) (y : List ℕ) (seed : ℕ) :
    List Vec × List Vec × List ℕ × List ℕ :=
  let ord := splitOrder X.length seed
  let testIdx := ord.take (X.length / 4)
  let trainIdx := ord.drop (X.length / 4)
  (trainIdx.map (fun i => X.getD i []), testIdx.map (fun i => X.getD i []),
   trainIdx.map (fun i => y.getD i 0), testIdx.map (fun i => y.getD i 0))

/-- Embedded from the notebook: the seed passed at the first split call
site, train_test_split(X, y, random_state=99). -/
def randomStateFirstCall : ℕ := 99

/-- Embedded from the notebook: the seed passed at the second split call
site, again train_test_split(X, y, random_state=99). -/
def randomStateSecondCall : ℕ := 99

/-- One full run of the notebook pipeline at a given seed: split, fit k-NN
on the training partition, predict the test partition, and score. -/
def pipelineRun (X : List Vec) (y : List ℕ) (seed k : ℕ) :
    List ℕ × Except KNNError ℚ :=
  let s := trainTestSplit X y seed
  let preds := s.2.1.map (predict k s.1 s.2.2.1)
  (preds, accuracy preds s.2.2.2)

lemma sqDist_nonneg (a b : Vec) : 0 ≤ sqDist a b := by
  unfold sqDist
  induction a generalizing b with
  | nil => simp
  | cons x xs ih =>
    cases b with
    | nil => simp
    | cons y ys =>
      simp only [List.zipWith_cons_cons, List.sum_cons]
      exact add_nonneg (by positivity) (ih ys)

lemma sqDist_self (v : Vec) : sqDist v v = 0 := by
  unfold sqDist
  induction v with
  | nil => simp
  | cons x xs ih => simp [ih]

lemma sqDist_eq_zero (a b : Vec) (hlen : a.length = b.length) (h : sqDist a b = 0) :
    a = b := by
  induction a generalizing b with
  | nil =>
    cases b with
    | nil => rfl
    | cons y ys => simp at hlen
  | cons x xs ih =>
    cases b with
    | nil => simp at hlen
    | cons y ys =>
      unfold sqDist at h
      simp only [List.zipWith_cons_cons, List.sum_cons] at h
      have h1 : 0 ≤ sqDist xs ys := sqDist_nonneg xs ys
      have h2 : (0:ℚ) ≤ (x - y) ^ 2 := sq_nonneg _
      have hx : (x - y) ^ 2 = 0 ∧ sqDist xs ys = 0 := by
        unfold sqDist at h1 ⊢
        constructor <;> nlinarith
      have hxy : x = y := by
        have := pow_eq_zero_iff (n := 2) (by norm_num) |>.mp hx.1
        linarith [sub_eq_zero.mp this]
      have hlen' : xs.length = ys.length := by simpa using hlen
      rw [hxy, ih ys hlen' hx.2]

lemma map_range_getD {α : Type} (l : List α) (d : α) :
    (List.range l.length).map (fun i => l.getD i d) = l := by
  apply List.ext_getElem
  · simp
  · intro i h1 h2
    simp only [List.getElem_map, List.getElem_range]
    exact List.getD_eq_getElem l d h2

lemma getD_mapIdx (f : ℕ → ℚ → ℚ) (l : List ℚ) (i : ℕ) (h : i < l.length) :
    (l.mapIdx f).getD i 0 = f i (l.getD i 0) := by
  rw [List.getD_eq_getElem _ _ (by simpa [List.length_mapIdx] using h),
    List.getD_eq_getElem _ _ h, List.getElem_mapIdx]

lemma sum_map_add {α : Type} (l : List α) (f g : α → ℕ) :
    (l.map (fun x => f x + g x)).sum = (l.map f).sum + (l.map g).sum := by
  induction l with
  | nil => simp
  | cons x t ih => simp [ih]; omega

lemma sum_map_div (l : List ℕ) (f : ℕ → ℚ) (d : ℚ) :
    (l.map (fun c => f c / d)).sum = (l.map f).sum / d := by
  induction l with
  | nil => simp
  | cons x t ih => simp [ih, add_div]

lemma sum_map_natCast (l : List ℕ) (f : ℕ → ℕ) :
    (l.map (fun c => ((f c : ℕ) : ℚ))).sum = (((l.map f).sum : ℕ) : ℚ) := by
  induction l with
  | nil => simp
  | cons x t ih => simp [ih]

lemma length_neighborRows (train : List Vec) (lbls : List ℕ) (q : Vec) :
    (neighborRows train lbls q).length = train.length := by
  simp [neighborRows]

lemma mem_neighborRows {train : List Vec} {lbls : List ℕ} {q : Vec} {r : ℕ × ℚ × ℕ} :
    r ∈ neighborRows train lbls q ↔
      ∃ i < train.length, r = (i, sqDist q (train.getD i []), lbls.getD i 0) := by
  simp only [neighborRows, List.mem_map, List.mem_range]
  constructor
  · rintro ⟨i, hi, rfl⟩
    exact ⟨i, hi, rfl⟩
  · rintro ⟨i, hi, rfl⟩
    exact ⟨i, hi, rfl⟩

lemma neighborRows_nodup (train : List Vec) (lbls : List ℕ) (q : Vec) :
    (neighborRows train lbls q).Nodup := by
  apply List.Nodup.map _ (List.nodup_range _)
  intro i j hij
  exact congrArg Prod.fst hij

lemma sortedRows_perm (train : List Vec) (lbls : List ℕ) (q : Vec) :
    (List.insertionSort distR (neighborRows train lbls q)).Perm
      (neighborRows train lbls q) :=
  List.perm_insertionSort distR _

lemma sortedRows_sorted (train : List Vec) (lbls : List ℕ) (q : Vec) :
    List.Sorted distR (List.insertionSort distR (neighborRows train lbls q)) :=
  List.sorted_insertionSort distR _

lemma sortedRows_length (train : List Vec) (lbls : List ℕ) (q : Vec) :
    (List.insertionSort distR (neighborRows train lbls q)).length = train.length := by
  rw [List.length_insertionSort, length_neighborRows]

lemma nearest_length {k : ℕ} (train : List Vec) (lbls : List ℕ) (q : Vec)
    (h : k ≤ train.length) : (nearest k train lbls q).length = k := by
  simp only [nearest, List.length_take, sortedRows_length]
  omega

lemma mem_nearest_mem_rows {k : ℕ} {train : List Vec} {lbls : List ℕ} {q : Vec}
    {r : ℕ × ℚ × ℕ} (h : r ∈ nearest k train lbls q) :
    r ∈ neighborRows train lbls q :=
  (sortedRows_perm train lbls q).mem_iff.mp (List.mem_of_mem_take h)

lemma mem_nearest_row {k : ℕ} {train : List Vec} {lbls : List ℕ} {q : Vec}
    {r : ℕ × ℚ × ℕ} (h : r ∈ nearest k train lbls q) :
    r.1 < train.length ∧ r.2.1 = sqDist q (train.getD r.1 []) ∧
      r.2.2 = lbls.getD r.1 0 := by
  obtain ⟨i, hi, rfl⟩ := mem_neighborRows.mp (mem_nearest_mem_rows h)
  exact ⟨hi, rfl, rfl⟩

lemma nearest_boundary {k : ℕ} {train : List Vec} {lbls : List ℕ} {q : Vec}
    {r : ℕ × ℚ × ℕ} {j : ℕ} (hr : r ∈ nearest k train lbls q)
    (hj : j < train.length)
    (hjnot : j ∉ (nearest k train lbls q).map (fun s => s.1)) :
    r.2.1 < sqDist q (train.getD j []) ∨
      (r.2.1 = sqDist q (train.getD j []) ∧ r.1 < j) := by
  set rowj : ℕ × ℚ × ℕ := (j, sqDist q (train.getD j []), lbls.getD j 0) with hrowj
  have hmemj : rowj ∈ List.insertionSort distR (neighborRows train lbls q) :=
    (sortedRows_perm train lbls q).mem_iff.mpr (mem_neighborRows.mpr ⟨j, hj, rfl⟩)
  have hnottake : rowj ∉ nearest k train lbls q := by
    intro hmem
    exact hjnot (List.mem_map.mpr ⟨rowj, hmem, rfl⟩)
  have hdrop : rowj ∈ (List.insertionSort distR (neighborRows train lbls q)).drop k := by
    rcases List.mem_append.mp
        (by rw [List.take_append_drop k
            (List.insertionSort distR (neighborRows train lbls q))]; exact hmemj) with
      h | h
    · exact absurd h hnottake
    · exact h
  have hpair : distR r rowj := by
    have hs := sortedRows_sorted train lbls q
    have hsplit := List.take_append_drop k
      (List.insertionSort distR (neighborRows train lbls q))
    rw [← hsplit] at hs
    exact (List.pairwise_append.mp hs).2.2 r hr rowj hdrop
  have hne : r.1 ≠ j := by
    intro he
    obtain ⟨i, hi, rfl⟩ := mem_neighborRows.mp (mem_nearest_mem_rows hr)
    simp only at he
    subst he
    have hnd : (List.insertionSort distR (neighborRows train lbls q)).Nodup :=
      ((sortedRows_perm train lbls q).nodup_iff).mpr (neighborRows_nodup train lbls q)
    have hsplit := List.take_append_drop k
      (List.insertionSort distR (neighborRows train lbls q))
    rw [← hsplit] at hnd
    have hdisj := (List.nodup_append.mp hnd).2.2
    exact hdisj hr hdrop
  rcases hpair with h | ⟨h, hle⟩
  · exact Or.inl h
  · exact Or.inr ⟨h, lt_of_le_of_ne hle hne⟩

lemma voteWinner_mem {votes : List ℕ} (h : votes ≠ []) : voteWinner votes ∈ votes := by
  have hp := List.perm_insertionSort (voteR votes) votes
  unfold voteWinner
  cases hs : List.insertionSort (voteR votes) votes with
  | nil =>
    rw [hs] at hp
    exact absurd (hp.symm.eq_nil) h
  | cons w t =>
    rw [hs] at hp
    exact hp.mem_iff.mp (List.mem_cons_self w t)

lemma voteWinner_dominates {votes : List ℕ} (h : votes ≠ []) (m : ℕ) (hm : m ∈ votes) :
    votes.count m ≤ votes.count (voteWinner votes) ∧
      (votes.count m = votes.count (voteWinner votes) → voteWinner votes ≤ m) := by
  have hp := List.perm_insertionSort (voteR votes) votes
  have hsorted := List.sorted_insertionSort (voteR votes) votes
  unfold voteWinner
  cases hs : List.insertionSort (voteR votes) votes with
  | nil =>
    rw [hs] at hp
    exact absurd (hp.symm.eq_nil) h
  | cons w t =>
    rw [hs] at hp hsorted
    have hmem : m = w ∨ m ∈ t := List.mem_cons.mp (hp.mem_iff.mpr hm)
    rcases hmem with rfl | hmt
    · exact ⟨le_refl _, fun _ => le_refl _⟩
    · have hrel : voteR votes w m := (List.sorted_cons.mp hsorted).1 m hmt
      unfold voteR at hrel
      simp only [List.headD_cons]
      omega

lemma voteWinner_eq_of {votes : List ℕ} (h : votes ≠ []) (l : ℕ) (hl : l ∈ votes)
    (hmax : ∀ m ∈ votes, votes.count m ≤ votes.count l)
    (hleast : ∀ m ∈ votes, votes.count m = votes.count l → l ≤ m) :
    voteWinner votes = l := by
  have hw := voteWinner_mem h
  have hd := voteWinner_dominates h l hl
  have h1 : votes.count l ≤ votes.count (voteWinner votes) := hd.1
  have h2 : votes.count (voteWinner votes) ≤ votes.count l := hmax _ hw
  have heq : votes.count l = votes.count (voteWinner votes) := le_antisymm h1 h2
  exact le_antisymm (hd.2 heq) (hleast _ hw heq.symm)

lemma voteWinner_perm {votes votes' : List ℕ} (hp : votes.Perm votes') :
    voteWinner votes = voteWinner votes' := by
  cases votes with
  | nil =>
    rw [hp.symm.eq_nil]
  | cons v vs =>
    have h : (v :: vs) ≠ [] := List.cons_ne_nil v vs
    have h' : votes' ≠ [] := by
      intro he
      rw [he] at hp
      exact h hp.eq_nil
    apply voteWinner_eq_of h
    · exact hp.mem_iff.mpr (voteWinner_mem h')
    · intro m hm
      rw [hp.count_eq, hp.count_eq]
      exact (voteWinner_dominates h' m (hp.mem_iff.mp hm)).1
    · intro m hm hc
      rw [hp.count_eq, hp.count_eq] at hc
      exact (voteWinner_dominates h' m (hp.mem_iff.mp hm)).2 hc

lemma voteWinner_singleton (l : ℕ) : voteWinner [l] = l := rfl

lemma tupleLt_irrefl (a : ℚ × ℕ) : ¬ tupleLt a a := by
  unfold tupleLt
  rintro (h | ⟨-, h⟩)
  · exact lt_irrefl _ h
  · exact lt_irrefl _ h

lemma tupleDom_trans {A B C : ℚ × ℕ}
    (h1 : B.1 ≤ A.1 ∧ (B.1 = A.1 → B.2 ≤ A.2))
    (h2 : C.1 ≤ B.1 ∧ (C.1 = B.1 → C.2 ≤ B.2)) :
    C.1 ≤ A.1 ∧ (C.1 = A.1 → C.2 ≤ A.2) := by
  refine ⟨le_trans h2.1 h1.1, fun he => ?_⟩
  have hcb : C.1 = B.1 := le_antisymm h2.1 (he ▸ h1.1)
  have hba : B.1 = A.1 := by rw [← hcb, he]
  exact le_trans (h2.2 hcb) (h1.2 hba)

lemma tupleStep_dom_left (acc y : ℚ × ℕ) :
    acc.1 ≤ (if tupleLt acc y then y else acc).1 ∧
      (acc.1 = (if tupleLt acc y then y else acc).1 →
        acc.2 ≤ (if tupleLt acc y then y else acc).2) := by
  split_ifs with h
  · unfold tupleLt at h
    rcases h with h | ⟨h, h2⟩
    · exact ⟨le_of_lt h, fun he => absurd he (ne_of_lt h)⟩
    · exact ⟨le_of_eq h, fun _ => le_of_lt h2⟩
  · exact ⟨le_refl _, fun _ => le_refl _⟩

lemma tupleStep_dom_right (acc y : ℚ × ℕ) :
    y.1 ≤ (if tupleLt acc y then y else acc).1 ∧
      (y.1 = (if tupleLt acc y then y else acc).1 →
        y.2 ≤ (if tupleLt acc y then y else acc).2) := by
  split_ifs with h
  · exact ⟨le_refl _, fun _ => le_refl _⟩
  · unfold tupleLt at h
    push_neg at h
    exact ⟨h.1, fun he => h.2 he.symm⟩

lemma foldl_step_dom :
    ∀ (xs : List (ℚ × ℕ)) (acc p : ℚ × ℕ), (p = acc ∨ p ∈ xs) →
      p.1 ≤ (xs.foldl (fun a y => if tupleLt a y then y else a) acc).1 ∧
        (p.1 = (xs.foldl (fun a y => if tupleLt a y then y else a) acc).1 →
          p.2 ≤ (xs.foldl (fun a y => if tupleLt a y then y else a) acc).2) := by
  intro xs
  induction xs with
  | nil =>
    rintro acc p (rfl | hp)
    · exact ⟨le_refl _, fun _ => le_refl _⟩
    · exact absurd hp (List.not_mem_nil p)
  | cons y ys ih =>
    rintro acc p (rfl | hp)
    · exact tupleDom_trans (ih (if tupleLt p y then y else p) _ (Or.inl rfl))
        (tupleStep_dom_left p y)
    · rcases List.mem_cons.mp hp with rfl | hmem
      · exact tupleDom_trans (ih (if tupleLt acc p then p else acc) _ (Or.inl rfl))
          (tupleStep_dom_right acc p)
      · exact ih _ p (Or.inr hmem)

lemma foldl_step_mem :
    ∀ (xs : List (ℚ × ℕ)) (acc : ℚ × ℕ),
      xs.foldl (fun a y => if tupleLt a y then y else a) acc = acc ∨
        xs.foldl (fun a y => if tupleLt a y then y else a) acc ∈ xs := by
  intro xs
  induction xs with
  | nil => exact fun acc => Or.inl rfl
  | cons y ys ih =>
    intro acc
    rcases ih (if tupleLt acc y then y else acc) with h | h
    · rw [List.foldl_cons, h]
      split_ifs with hc
      · exact Or.inr (List.mem_cons_self y ys)
      · exact Or.inl rfl
    · exact Or.inr (List.mem_cons_of_mem y (by rw [List.foldl_cons]; exact h))

lemma pyMax_mem {l : List (ℚ × ℕ)} (h : l ≠ []) : pyMax l ∈ l := by
  cases l with
  | nil => exact absurd rfl h
  | cons x xs =>
    simp only [pyMax]
    rcases foldl_step_mem xs x with h1 | h1
    · rw [h1]; exact List.mem_cons_self x xs
    · exact List.mem_cons_of_mem x h1

lemma pyMax_dom {l : List (ℚ × ℕ)} (h : l ≠ []) (p : ℚ × ℕ) (hp : p ∈ l) :
    p.1 ≤ (pyMax l).1 ∧ (p.1 = (pyMax l).1 → p.2 ≤ (pyMax l).2) := by
  cases l with
  | nil => exact absurd rfl h
  | cons x xs =>
    simp only [pyMax]
    rcases List.mem_cons.mp hp with h | hmem
    · exact foldl_step_dom xs x p (Or.inl h)
    · exact foldl_step_dom xs x p (Or.inr hmem)

/-- Claim C10: for a fixed input dataset the whole pipeline is deterministic:
both split call sites use the fixed seed random_state = 99, so two runs on
the same data produce identical training and test partitions and therefore
identical predictions and accuracy values. -/
theorem pipeline_deterministic_seed99 (X : List Vec) (y : List ℕ) (k : ℕ) :
    trainTestSplit X y randomStateFirstCall = trainTestSplit X y randomStateSecondCall ∧
    pipelineRun X y randomStateFirstCall k = pipelineRun X y randomStateSecondCall k :=
  ⟨rfl, rfl⟩

/-- Claim C3: fit fails with InvalidArgument exactly when k ≤ 0, the feature
vectors have inconsistent length, or the feature and label counts differ;
when none of those hold it fails with InsufficientData exactly when k exceeds
the number of training examples; otherwise it succeeds and stores the
features and labels as the model state. -/
theorem fit_error_characterization (features : List Vec) (labels : List ℕ) (k : ℤ) :
    (fit features labels k = .error .invalidArgument ↔
      (k ≤ 0 ∨ ¬ (∀ v ∈ features, v.length = (features.headD []).length) ∨
        features.length ≠ labels.length)) ∧
    (¬ (k ≤ 0 ∨ ¬ (∀ v ∈ features, v.length = (features.headD []).length) ∨
        features.length ≠ labels.length) →
      (fit features labels k = .error .insufficientData ↔
        (features.length : ℤ) < k)) ∧
    (fit features labels k = .ok ⟨k.toNat, features, labels⟩ ↔
      (0 < k ∧ (∀ v ∈ features, v.length = (features.headD []).length) ∧
        features.length = labels.length ∧ k ≤ (features.length : ℤ))) := by
  unfold fit
  split_ifs with h1 h2 h3 h4 <;>
    refine ⟨?_, ?_, ?_⟩ <;>
    simp_all

/-- Witness for C3: a well-formed call succeeds and stores the data. -/
theorem fit_error_characterization_witness :
    fit [[1], [2]] [5, 6] 2 = .ok ⟨2, [[1], [2]], [5, 6]⟩ :=
  (fit_error_characterization [[1], [2]] [5, 6] 2).2.2.mpr (by decide)

/-- Claim C9: for equal-length non-empty label sequences, accuracy returns
the count of positions where predicted equals true divided by the total
count, a value in [0,1]; it fails with InvalidArgument exactly when the two
sequences differ in length or are empty. -/
theorem accuracy_fraction_characterization (pred truth : List ℕ) :
    (pred.length = truth.length ∧ pred ≠ [] →
      accuracy pred truth =
        .ok ((((pred.zip truth).countP (fun p => p.1 == p.2)) : ℚ) /
          (pred.length : ℚ)) ∧
      ∃ r : ℚ, accuracy pred truth = .ok r ∧ 0 ≤ r ∧ r ≤ 1) ∧
    (accuracy pred truth = .error .invalidArgument ↔
      (pred.length ≠ truth.length ∨ pred = [])) := by
  constructor
  · rintro ⟨hlen, hne⟩
    have hpos : 0 < pred.length := List.length_pos.mpr hne
    have hcond : ¬ (pred.length ≠ truth.length ∨ pred.length = 0) := by
      push_neg
      exact ⟨hlen, by omega⟩
    unfold accuracy
    rw [if_neg hcond]
    refine ⟨rfl, _, rfl, ?_, ?_⟩
    · apply div_nonneg (by positivity) (by positivity)
    · rw [div_le_one (by exact_mod_cast hpos)]
      have hc : (pred.zip truth).countP (fun p => p.1 == p.2) ≤ pred.length := by
        calc (pred.zip truth).countP (fun p => p.1 == p.2)
            ≤ (pred.zip truth).length := List.countP_le_length _
          _ ≤ pred.length := by rw [List.length_zip]; omega
      exact_mod_cast hc
  · unfold accuracy
    split_ifs with h
    · simp only [true_iff]
      rcases h with h | h
      · exact Or.inl h
      · exact Or.inr (List.length_eq_zero.mp h)
    · simp only [reduceCtorEq, false_iff]
      push_neg at h ⊢
      exact ⟨h.1, fun hc => h.2 (by rw [hc]; rfl)⟩

/-- Witness for C9: accuracy of [1,2,2] against [1,2,0] is 2/3, inside
[0,1]. -/
theorem accuracy_fraction_characterization_witness :
    accuracy [1, 2, 2] [1, 2, 0] = .ok (2 / 3) ∧
      accuracy [0] [1, 2] = .error .invalidArgument := by
  constructor
  · have h := (accuracy_fraction_characterization [1, 2, 2] [1, 2, 0]).1
      (by constructor <;> decide)
    rw [h.1]
    norm_num
  · exact (accuracy_fraction_characterization [0] [1, 2]).2.mpr (by decide)

/-- Claim C4 (demonstration of the code bug): the notebook fits the scaler
separately on the training and test partitions; nothing flags this, and the
two fits silently produce different transforms.  On a one-feature training
column [1, 2, 3] and test column [10, 20, 30] the fitted states (mean,
variance) differ. -/
theorem scaler_refit_inconsistent :
    scalerFit [[1], [2], [3]] = [(2, 2 / 3)] ∧
    scalerFit [[10], [20], [30]] = [(20, 200 / 3)] ∧
    scalerFit [[1], [2], [3]] ≠ scalerFit [[10], [20], [30]] := by
  have h1 : scalerFit [[1], [2], [3]] = [(2, 2 / 3)] := by
    norm_num [scalerFit, column, colMean, colVar, List.range_succ]
  have h2 : scalerFit [[10], [20], [30]] = [(20, 200 / 3)] := by
    norm_num [scalerFit, column, colMean, colVar, List.range_succ]
  refine ⟨h1, h2, ?_⟩
  rw [h1, h2]
  norm_num

/-- Counterexample for C5: the notebook selects the best k with
max(list(zip(testing_accuracies, k_range))); with testing accuracies
[1/2, 1/2] for k in [1, 2] the maximal accuracy 1/2 is shared by k = 1 and
k = 2, and the code returns 2, not the smallest such k (1) as the claim
states. -/
theorem bestK_smallest_tie_false :
    bestK [1 / 2, 1 / 2] [1, 2] = 2 ∧ bestK [1 / 2, 1 / 2] [1, 2] ≠ 1 := by
  have h : bestK [1 / 2, 1 / 2] [1, 2] = 2 := by
    norm_num [bestK, pyMax, tupleLt, List.zip_cons_cons]
  exact ⟨h, by rw [h]; decide⟩

/-- Claim C5 (amended): best_k returns the k whose testing accuracy is
maximal, and when several k values share the maximal testing accuracy it
returns the largest such k (Python max compares (accuracy, k) tuples
lexicographically, so equal accuracies are resolved toward the larger k). -/
theorem bestK_max_largest_tie (accs : List ℚ) (ks : List ℕ)
    (h : accs.zip ks ≠ []) :
    pyMax (accs.zip ks) ∈ accs.zip ks ∧
    bestK accs ks = (pyMax (accs.zip ks)).2 ∧
    ∀ p ∈ accs.zip ks,
      p.1 ≤ (pyMax (accs.zip ks)).1 ∧
      (p.1 = (pyMax (accs.zip ks)).1 → p.2 ≤ bestK accs ks) :=
  ⟨pyMax_mem h, rfl, fun p hp => pyMax_dom h p hp⟩

/-- Witness for C5 (amended): with accuracies [1/2, 1/2] for k in [1, 2]
the selected pair is in the list and dominates both entries. -/
theorem bestK_max_largest_tie_witness :
    pyMax ([(1 : ℚ) / 2, 1 / 2].zip [1, 2]) ∈ [(1 : ℚ) / 2, 1 / 2].zip [1, 2] ∧
    bestK [1 / 2, 1 / 2] [1, 2] = (pyMax ([(1 : ℚ) / 2, 1 / 2].zip [1, 2])).2 ∧
    ∀ p ∈ [(1 : ℚ) / 2, 1 / 2].zip [1, 2],
      p.1 ≤ (pyMax ([(1 : ℚ) / 2, 1 / 2].zip [1, 2])).1 ∧
      (p.1 = (pyMax ([(1 : ℚ) / 2, 1 / 2].zip [1, 2])).1 →
        p.2 ≤ bestK [1 / 2, 1 / 2] [1, 2]) :=
  bestK_max_largest_tie [1 / 2, 1 / 2] [1, 2] (by decide)

lemma length_neighborLabels {k : ℕ} (train : List Vec) (lbls : List ℕ) (q : Vec)
    (h : k ≤ train.length) : (neighborLabels k train lbls q).length = k := by
  rw [neighborLabels, List.length_map, nearest_length train lbls q h]

lemma neighborLabels_subset {k : ℕ} {train : List Vec} {lbls : List ℕ} {q : Vec}
    (hlen : train.length = lbls.length) :
    ∀ x ∈ neighborLabels k train lbls q, x ∈ lbls := by
  intro x hx
  obtain ⟨r, hr, rfl⟩ := List.mem_map.mp hx
  obtain ⟨hi, -, hl⟩ := mem_nearest_row hr
  rw [hl, List.getD_eq_getElem lbls 0 (hlen ▸ hi)]
  exact List.getElem_mem _

lemma sum_indicator_one {cs : List ℕ} (hnd : cs.Nodup) {x : ℕ} (hx : x ∈ cs) :
    (cs.map (fun c => if x = c then (1 : ℕ) else 0)).sum = 1 := by
  induction cs with
  | nil => exact absurd hx (List.not_mem_nil x)
  | cons c t ih =>
    obtain ⟨hct, htnd⟩ := List.nodup_cons.mp hnd
    rcases List.mem_cons.mp hx with rfl | hxt
    · simp only [List.map_cons, List.sum_cons, if_pos rfl]
      have hz : (t.map (fun c => if x = c then (1 : ℕ) else 0)).sum = 0 := by
        apply List.sum_eq_zero
        intro y hy
        obtain ⟨c', hc', rfl⟩ := List.mem_map.mp hy
        rw [if_neg]
        intro he
        exact hct (he ▸ hc')
      simp [hz]
    · have hxc : x ≠ c := fun he => hct (he ▸ hxt)
      simp only [List.map_cons, List.sum_cons, if_neg hxc]
      rw [ih htnd hxt]

lemma sum_count_eq_length (cs nl : List ℕ) (hnd : cs.Nodup)
    (hsub : ∀ x ∈ nl, x ∈ cs) :
    (cs.map (fun c => nl.count c)).sum = nl.length := by
  induction nl with
  | nil => simp
  | cons x t ih =>
    have hx : x ∈ cs := hsub x (List.mem_cons_self x t)
    have hsub' : ∀ y ∈ t, y ∈ cs := fun y hy => hsub y (List.mem_cons_of_mem x hy)
    have hstep : (cs.map (fun c => (x :: t).count c)).sum =
        (cs.map (fun c => t.count c + if x = c then 1 else 0)).sum := by
      apply congrArg
      apply List.map_congr_left
      intro c _
      rw [List.count_cons]
      congr 1
      simp [beq_iff_eq]
    rw [hstep, List.map_congr_left (fun c _ => rfl), sum_map_add cs
      (fun c => t.count c) (fun c => if x = c then 1 else 0),
      ih hsub', sum_indicator_one hnd hx]
    simp [Nat.add_comm]

/-- Claim C1: for every fitted model, predict computes the Euclidean distance
from the query to every stored training vector, selects the k training
examples with smallest distance (breaking equal-distance ties at the k-th
boundary by first occurrence in the training set), and returns the label
with the highest vote count among those k neighbors, breaking label ties by
lowest label value.  Stated over the selected rows: exactly k rows are
selected; each selected row carries the true distance and label of its
training index; every selected row is at Euclidean distance no larger than
any unselected training point, an equal distance being allowed only for an
unselected point occurring later in the training set; and the returned
label is a neighbor label whose vote count is maximal, equal counts being
resolved toward the smaller label. -/
theorem predict_nearest_majority (k : ℕ) (train : List Vec) (lbls : List ℕ)
    (q : Vec) (hk : 0 < k) (hkn : k ≤ train.length) :
    (nearest k train lbls q).length = k ∧
    (∀ r ∈ nearest k train lbls q,
      r.1 < train.length ∧ r.2.1 = sqDist q (train.getD r.1 []) ∧
        r.2.2 = lbls.getD r.1 0) ∧
    (∀ r ∈ nearest k train lbls q, ∀ j < train.length,
      j ∉ (nearest k train lbls q).map (fun s => s.1) →
        Real.sqrt ((sqDist q (train.getD r.1 []) : ℚ) : ℝ) ≤
          Real.sqrt ((sqDist q (train.getD j []) : ℚ) : ℝ) ∧
        (sqDist q (train.getD r.1 []) = sqDist q (train.getD j []) → r.1 < j)) ∧
    predict k train lbls q ∈ neighborLabels k train lbls q ∧
    (∀ m ∈ neighborLabels k train lbls q,
      (neighborLabels k train lbls q).count m ≤
        (neighborLabels k train lbls q).count (predict k train lbls q) ∧
      ((neighborLabels k train lbls q).count m =
          (neighborLabels k train lbls q).count (predict k train lbls q) →
        predict k train lbls q ≤ m)) := by
  have hne : neighborLabels k train lbls q ≠ [] := by
    intro he
    have hl := length_neighborLabels train lbls q hkn
    rw [he] at hl
    rw [List.length_nil] at hl
    omega
  refine ⟨nearest_length train lbls q hkn, ?_, ?_, voteWinner_mem hne, ?_⟩
  · intro r hr
    exact mem_nearest_row hr
  · intro r hr j hj hjnot
    obtain ⟨-, hd, -⟩ := mem_nearest_row hr
    have hb := nearest_boundary hr hj hjnot
    rw [hd] at hb
    constructor
    · apply Real.sqrt_le_sqrt
      rcases hb with h | ⟨h, -⟩
      · exact_mod_cast le_of_lt h
      · exact_mod_cast le_of_eq h
    · intro heq
      rcases hb with h | ⟨-, h⟩
      · exact absurd heq (ne_of_lt h)
      · exact h
  · intro m hm
    exact voteWinner_dominates hne m hm

/-- Witness for C1: a concrete fitted model with k = 2 on three points. -/
theorem predict_nearest_majority_witness :
    (nearest 2 [[0], [1], [10]] [4, 5, 6] [0]).length = 2 ∧
    (∀ r ∈ nearest 2 [[0], [1], [10]] [4, 5, 6] [0],
      r.1 < 3 ∧ r.2.1 = sqDist [0] ([[0], [1], [10]].getD r.1 []) ∧
        r.2.2 = [4, 5, 6].getD r.1 0) ∧
    (∀ r ∈ nearest 2 [[0], [1], [10]] [4, 5, 6] [0], ∀ j < 3,
      j ∉ (nearest 2 [[0], [1], [10]] [4, 5, 6] [0]).map (fun s => s.1) →
        Real.sqrt ((sqDist [0] ([[0], [1], [10]].getD r.1 []) : ℚ) : ℝ) ≤
          Real.sqrt ((sqDist [0] ([[0], [1], [10]].getD j []) : ℚ) : ℝ) ∧
        (sqDist [0] ([[0], [1], [10]].getD r.1 []) =
            sqDist [0] ([[0], [1], [10]].getD j []) → r.1 < j)) ∧
    predict 2 [[0], [1], [10]] [4, 5, 6] [0] ∈
      neighborLabels 2 [[0], [1], [10]] [4, 5, 6] [0] ∧
    (∀ m ∈ neighborLabels 2 [[0], [1], [10]] [4, 5, 6] [0],
      (neighborLabels 2 [[0], [1], [10]] [4, 5, 6] [0]).count m ≤
        (neighborLabels 2 [[0], [1], [10]] [4, 5, 6] [0]).count
          (predict 2 [[0], [1], [10]] [4, 5, 6] [0]) ∧
      ((neighborLabels 2 [[0], [1], [10]] [4, 5, 6] [0]).count m =
          (neighborLabels 2 [[0], [1], [10]] [4, 5, 6] [0]).count
            (predict 2 [[0], [1], [10]] [4, 5, 6] [0]) →
        predict 2 [[0], [1], [10]] [4, 5, 6] [0] ≤ m)) :=
  predict_nearest_majority 2 [[0], [1], [10]] [4, 5, 6] [0]
    (by decide) (by decide)

/-- Claim C2: for every fitted model and query, predict_proba returns, for
each label, the count of that label among the k nearest neighbors divided
by k, and the returned probabilities sum to exactly 1, hence to 1.0 within
the tolerance 1e-9. -/
theorem predictProba_counts_sum_one (k : ℕ) (train : List Vec) (lbls : List ℕ)
    (q : Vec) (hk : 0 < k) (hkn : k ≤ train.length)
    (hlen : train.length = lbls.length) :
    (∀ e ∈ predictProba k train lbls q,
      e.2 = ((neighborLabels k train lbls q).count e.1 : ℚ) / (k : ℚ)) ∧
    ((predictProba k train lbls q).map (fun e => e.2)).sum = 1 ∧
    |((predictProba k train lbls q).map (fun e => e.2)).sum - 1| ≤
      1 / 1000000000 := by
  have hsum : ((predictProba k train lbls q).map (fun e => e.2)).sum = 1 := by
    have hmap : (predictProba k train lbls q).map (fun e => e.2) =
        lbls.dedup.map
          (fun c => ((neighborLabels k train lbls q).count c : ℚ) / (k : ℚ)) := by
      rw [predictProba, List.map_map]
      rfl
    rw [hmap, sum_map_div, sum_map_natCast,
      sum_count_eq_length lbls.dedup (neighborLabels k train lbls q)
        (List.nodup_dedup lbls)
        (fun x hx => List.mem_dedup.mpr (neighborLabels_subset hlen x hx)),
      length_neighborLabels train lbls q hkn]
    exact div_self (by exact_mod_cast hk.ne')
  refine ⟨?_, hsum, ?_⟩
  · intro e he
    obtain ⟨c, -, rfl⟩ := List.mem_map.mp he
    rfl
  · rw [hsum]
    norm_num

/-- Witness for C2: a concrete model with k = 2 on three points. -/
theorem predictProba_counts_sum_one_witness :
    (∀ e ∈ predictProba 2 [[0], [1], [10]] [4, 5, 4] [0],
      e.2 = ((neighborLabels 2 [[0], [1], [10]] [4, 5, 4] [0]).count e.1 : ℚ) /
        (2 : ℚ)) ∧
    ((predictProba 2 [[0], [1], [10]] [4, 5, 4] [0]).map (fun e => e.2)).sum = 1 ∧
    |((predictProba 2 [[0], [1], [10]] [4, 5, 4] [0]).map (fun e => e.2)).sum - 1| ≤
      1 / 1000000000 :=
  predictProba_counts_sum_one 2 [[0], [1], [10]] [4, 5, 4] [0]
    (by decide) (by decide) (by decide)

lemma predict_k1_self_point (train : List Vec) (lbls : List ℕ) (t : ℕ)
    (hn : 0 < train.length) (ht : t < train.length)
    (hdup : ∀ j < train.length,
      sqDist (train.getD t []) (train.getD j []) = 0 →
        lbls.getD j 0 = lbls.getD t 0) :
    predict 1 train lbls (train.getD t []) = lbls.getD t 0 := by
  have h1 : (nearest 1 train lbls (train.getD t [])).length = 1 :=
    nearest_length train lbls (train.getD t []) hn
  obtain ⟨r, hr⟩ := List.length_eq_one.mp h1
  have hrmem : r ∈ nearest 1 train lbls (train.getD t []) := by
    rw [hr]
    exact List.mem_cons_self r []
  obtain ⟨hi, hd, hl⟩ := mem_nearest_row hrmem
  have hd0 : sqDist (train.getD t []) (train.getD r.1 []) = 0 := by
    by_cases he : r.1 = t
    · rw [he]
      exact sqDist_self _
    · have hnot : t ∉ (nearest 1 train lbls (train.getD t [])).map (fun s => s.1) := by
        rw [hr]
        simp only [List.map_cons, List.map_nil, List.mem_singleton]
        exact fun hc => he hc.symm
      have hb := nearest_boundary hrmem ht hnot
      rw [sqDist_self] at hb
      have hge := sqDist_nonneg (train.getD t []) (train.getD r.1 [])
      rw [hd] at hb
      rcases hb with h | h
      · linarith
      · exact h.1
  have hlab : lbls.getD r.1 0 = lbls.getD t 0 := hdup r.1 hi hd0
  rw [predict, neighborLabels, hr]
  simp only [List.map_cons, List.map_nil]
  rw [voteWinner_singleton, hl, hlab]

/-- Claim C6: a classifier fitted with k = 1 predicts, for each training
point with no distance-0 duplicate carrying a different label, that point's
own label; consequently, when all training points are distinct in feature
space (and of a common feature length), the accuracy of the k = 1
classifier evaluated on its own training set is 1.0. -/
theorem predict_self_k1_accuracy (train : List Vec) (lbls : List ℕ)
    (hn : 0 < train.length) (hlen : train.length = lbls.length) :
    (∀ t < train.length,
      (∀ j < train.length, sqDist (train.getD t []) (train.getD j []) = 0 →
        lbls.getD j 0 = lbls.getD t 0) →
      predict 1 train lbls (train.getD t []) = lbls.getD t 0) ∧
    ((∀ v ∈ train, v.length = (train.headD []).length) →
      (∀ i < train.length, ∀ j < train.length, i ≠ j →
        train.getD i [] ≠ train.getD j []) →
      accuracy
        ((List.range train.length).map
          (fun t => predict 1 train lbls (train.getD t [])))
        lbls = .ok 1) := by
  constructor
  · intro t ht hdup
    exact predict_k1_self_point train lbls t hn ht hdup
  · intro hF hdist
    have hgetD_mem : ∀ i < train.length, train.getD i [] ∈ train := by
      intro i hi
      rw [List.getD_eq_getElem train [] hi]
      exact List.getElem_mem hi
    have hpred : (List.range train.length).map
        (fun t => predict 1 train lbls (train.getD t [])) = lbls := by
      have hpt : ∀ t ∈ List.range train.length,
          predict 1 train lbls (train.getD t []) = lbls.getD t 0 := by
        intro t htm
        have ht := List.mem_range.mp htm
        apply predict_k1_self_point train lbls t hn ht
        intro j hj h0
        by_cases hej : j = t
        · rw [hej]
        · exfalso
          have hlt : (train.getD t []).length = (train.headD []).length :=
            hF _ (hgetD_mem t ht)
          have hlj : (train.getD j []).length = (train.headD []).length :=
            hF _ (hgetD_mem j hj)
          have heq : train.getD t [] = train.getD j [] :=
            sqDist_eq_zero _ _ (by rw [hlt, hlj]) h0
          exact hdist t ht j hj (fun hc => hej hc.symm) heq
      rw [List.map_congr_left hpt, hlen, map_range_getD]
    rw [hpred]
    have hlpos : 0 < lbls.length := hlen ▸ hn
    have hcond : ¬ (lbls.length ≠ lbls.length ∨ lbls.length = 0) := by
      push_neg
      exact ⟨rfl, by omega⟩
    rw [accuracy, if_neg hcond]
    congr 1
    have hcount : ∀ l : List ℕ,
        (l.zip l).countP (fun p => p.1 == p.2) = l.length := by
      intro l
      induction l with
      | nil => simp
      | cons x xs ih => simp [List.countP_cons, ih]
    rw [hcount]
    exact div_self (by exact_mod_cast hlpos.ne')

/-- Witness for C6: three distinct one-feature points with labels
[4, 5, 4]. -/
theorem predict_self_k1_accuracy_witness :
    (∀ t < ([[0], [1], [10]] : List Vec).length,
      (∀ j < ([[0], [1], [10]] : List Vec).length,
        sqDist ([[0], [1], [10]].getD t []) ([[0], [1], [10]].getD j []) = 0 →
        [4, 5, 4].getD j 0 = [4, 5, 4].getD t 0) →
      predict 1 [[0], [1], [10]] [4, 5, 4] ([[0], [1], [10]].getD t []) =
        [4, 5, 4].getD t 0) ∧
    ((∀ v ∈ ([[0], [1], [10]] : List Vec),
        v.length = (([[0], [1], [10]] : List Vec).headD []).length) →
      (∀ i < ([[0], [1], [10]] : List Vec).length,
        ∀ j < ([[0], [1], [10]] : List Vec).length, i ≠ j →
          ([[0], [1], [10]] : List Vec).getD i [] ≠
            ([[0], [1], [10]] : List Vec).getD j []) →
      accuracy
        ((List.range ([[0], [1], [10]] : List Vec).length).map
          (fun t => predict 1 [[0], [1], [10]] [4, 5, 4]
            ([[0], [1], [10]].getD t [])))
        [4, 5, 4] = .ok 1) :=
  predict_self_k1_accuracy [[0], [1], [10]] [4, 5, 4] (by decide) (by decide)

/-- Claim C8: a classifier fitted with k = n (the full training-set size)
predicts, for every query, the majority-vote label of the entire training
set: whenever l is the single most frequent label, every prediction equals
l. -/
theorem predict_full_k_majority (train : List Vec) (lbls : List ℕ) (q : Vec)
    (l : ℕ) (hlen : train.length = lbls.length) (hl : l ∈ lbls)
    (hmaj : ∀ m ∈ lbls, m ≠ l → lbls.count m < lbls.count l) :
    predict train.length train lbls q = l := by
  have hperm : (neighborLabels train.length train lbls q).Perm lbls := by
    rw [neighborLabels, nearest,
      List.take_of_length_le (le_of_eq (sortedRows_length train lbls q))]
    have h1 : ((List.insertionSort distR (neighborRows train lbls q)).map
        (fun r => r.2.2)).Perm
          ((neighborRows train lbls q).map (fun r => r.2.2)) :=
      (sortedRows_perm train lbls q).map _
    have h2 : (neighborRows train lbls q).map (fun r => r.2.2) = lbls := by
      rw [neighborRows, List.map_map]
      have hc : ((fun r : ℕ × ℚ × ℕ => r.2.2) ∘
          (fun i => (i, sqDist q (train.getD i []), lbls.getD i 0))) =
          fun i => lbls.getD i 0 := rfl
      rw [hc, hlen, map_range_getD]
    rw [h2] at h1
    exact h1
  have hne : lbls ≠ [] := List.ne_nil_of_mem hl
  rw [predict, voteWinner_perm hperm]
  apply voteWinner_eq_of hne l hl
  · intro m hm
    by_cases he : m = l
    · rw [he]
    · exact le_of_lt (hmaj m hm he)
  · intro m hm hc
    by_cases he : m = l
    · rw [he]
    · exact absurd hc (ne_of_lt (hmaj m hm he))

/-- Witness for C8: with k = 3 on three points whose labels are [1, 1, 0],
every query is classified as the majority label 1. -/
theorem predict_full_k_majority_witness :
    predict 3 [[0], [1], [2]] [1, 1, 0] [100] = 1 :=
  predict_full_k_majority [[0], [1], [2]] [1, 1, 0] [100] 1
    (by decide) (by decide) (by decide)

lemma standardized_diff_sq (μ v p x : ℝ) (hv : 0 ≤ v) :
    ((p - μ) / Real.sqrt v - (x - μ) / Real.sqrt v) ^ 2 = (p - x) ^ 2 / v := by
  rw [div_sub_div_same]
  have h : p - μ - (x - μ) = p - x := by ring
  rw [h, div_pow, Real.sq_sqrt hv]

lemma sum_affine (a b : ℚ) (col : List ℚ) :
    (col.map (fun x => a * x + b)).sum = a * col.sum + b * col.length := by
  induction col with
  | nil => simp
  | cons x t ih =>
    simp only [List.map_cons, List.sum_cons, List.length_cons, ih]
    push_cast
    ring

lemma colMean_affine (a b : ℚ) (col : List ℚ) (h : col ≠ []) :
    colMean (col.map (fun x => a * x + b)) = a * colMean col + b := by
  have hn : ((col.length : ℕ) : ℚ) ≠ 0 := by
    have hp := List.length_pos.mpr h
    exact_mod_cast Nat.pos_iff_ne_zero.mp hp
  unfold colMean
  rw [List.length_map, sum_affine, add_div, mul_div_assoc,
    mul_div_cancel_right₀ b hn]

lemma colVar_affine (a b : ℚ) (col : List ℚ) :
    colVar (col.map (fun x => a * x + b)) = a ^ 2 * colVar col := by
  cases hcol : col with
  | nil => simp [colVar]
  | cons c0 ct =>
    rw [← hcol]
    have hne : col ≠ [] := by rw [hcol]; exact List.cons_ne_nil _ _
    unfold colVar
    rw [colMean_affine a b col hne, List.length_map, List.map_map]
    have hmc : ∀ x ∈ col,
        ((fun x => (x - (a * colMean col + b)) ^ 2) ∘ (fun x => a * x + b)) x =
          a ^ 2 * (x - colMean col) ^ 2 := by
      intro x _
      simp only [Function.comp_apply]
      ring
    rw [List.map_congr_left hmc, List.sum_map_mul_left, mul_div_assoc]

lemma mapIdx_id (l : List ℚ) : (l.mapIdx (fun _ x => x)) = l := by
  induction l with
  | nil => rfl
  | cons x t ih => rw [List.mapIdx_cons, ih]

lemma stdSqDist_cons (v x y : ℚ) (vs xs ys : List ℚ) :
    stdSqDist (v :: vs) (x :: xs) (y :: ys) =
      (x - y) ^ 2 / v + stdSqDist vs xs ys := rfl

lemma stdSqDist_nil_xs (vs ys : List ℚ) : stdSqDist vs [] ys = 0 := by
  cases vs <;> cases ys <;> rfl

lemma stdSqDist_nil_ys (vs xs : List ℚ) : stdSqDist vs xs [] = 0 := by
  cases vs <;> cases xs <;> rfl

lemma stdSqDist_rescale (a b : ℚ) (ha : a ≠ 0) :
    ∀ (j : ℕ) (vs xs ys : List ℚ),
    stdSqDist (vs.mapIdx (fun i v => if i = j then a ^ 2 * v else v))
              (xs.mapIdx (fun i x => if i = j then a * x + b else x))
              (ys.mapIdx (fun i y => if i = j then a * y + b else y)) =
      stdSqDist vs xs ys := by
  intro j vs
  induction vs generalizing j with
  | nil =>
    intro xs ys
    cases xs <;> cases ys <;> rfl
  | cons v vt ih =>
    intro xs ys
    cases xs with
    | nil =>
      rw [List.mapIdx_nil, stdSqDist_nil_xs, stdSqDist_nil_xs]
    | cons x xt =>
      cases ys with
      | nil =>
        rw [List.mapIdx_nil, stdSqDist_nil_ys, stdSqDist_nil_ys]
      | cons y yt =>
        rw [List.mapIdx_cons, List.mapIdx_cons, List.mapIdx_cons,
          stdSqDist_cons, stdSqDist_cons]
        cases j with
        | zero =>
          have hhead : (if (0 : ℕ) = 0 then a * x + b else x) -
              (if (0 : ℕ) = 0 then a * y + b else y) = a * (x - y) := by
            rw [if_pos rfl, if_pos rfl]
            ring
          have htail1 : (fun i (v : ℚ) => if i + 1 = 0 then a ^ 2 * v else v) =
              fun _ v => v := by
            funext i v
            simp
          have htail2 : (fun i (x : ℚ) => if i + 1 = 0 then a * x + b else x) =
              fun _ x => x := by
            funext i x
            simp
          rw [hhead, if_pos rfl, htail1, htail2, mapIdx_id, mapIdx_id, mapIdx_id]
          congr 1
          rw [mul_pow]
          exact mul_div_mul_left ((x - y) ^ 2) v (pow_ne_zero 2 ha)
        | succ j' =>
          have hz : ¬ ((0 : ℕ) = j' + 1) := fun hc => Nat.succ_ne_zero j' hc.symm
          have hshift1 : (fun i (v : ℚ) => if i + 1 = j' + 1 then a ^ 2 * v else v) =
              fun i v => if i = j' then a ^ 2 * v else v := by
            funext i v
            simp
          have hshift2 : (fun i (x : ℚ) => if i + 1 = j' + 1 then a * x + b else x) =
              fun i x => if i = j' then a * x + b else x := by
            funext i x
            simp
          rw [if_neg hz, if_neg hz, if_neg hz, hshift1, hshift2, ih j' xt yt]

lemma getD_rescaleRow (j : ℕ) (a b : ℚ) (v : Vec) (i : ℕ) (h : i < v.length) :
    (rescaleRow j a b v).getD i 0 =
      if i = j then a * v.getD i 0 + b else v.getD i 0 := by
  rw [rescaleRow, getD_mapIdx _ _ _ h]

lemma length_rescaleRow (j : ℕ) (a b : ℚ) (v : Vec) :
    (rescaleRow j a b v).length = v.length := by
  rw [rescaleRow, List.length_mapIdx]

lemma getD_map_vec (f : Vec → Vec) (l : List Vec) (i : ℕ) (h : i < l.length) :
    (l.map f).getD i [] = f (l.getD i []) := by
  rw [List.getD_eq_getElem _ _ (by simpa using h), List.getD_eq_getElem _ _ h,
    List.getElem_map]

lemma column_rescale_eq (train : List Vec) (j : ℕ) (a b : ℚ)
    (hj : ∀ v ∈ train, j < v.length) :
    column j (train.map (rescaleRow j a b)) =
      (column j train).map (fun x => a * x + b) := by
  unfold column
  rw [List.map_map, List.map_map]
  apply List.map_congr_left
  intro v hv
  simp only [Function.comp_apply]
  rw [getD_rescaleRow j a b v j (hj v hv), if_pos rfl]

lemma column_rescale_ne (train : List Vec) (c j : ℕ) (a b : ℚ) (hc : c ≠ j)
    (hcl : ∀ v ∈ train, c < v.length) :
    column c (train.map (rescaleRow j a b)) = column c train := by
  unfold column
  rw [List.map_map]
  apply List.map_congr_left
  intro v hv
  simp only [Function.comp_apply]
  rw [getD_rescaleRow j a b v c (hcl v hv), if_neg hc]

lemma colVars_rescale (train : List Vec) (j : ℕ) (a b : ℚ) (F : ℕ)
    (hne : train ≠ []) (hrows : ∀ v ∈ train, v.length = F) :
    colVars (train.map (rescaleRow j a b)) =
      (colVars train).mapIdx (fun i v => if i = j then a ^ 2 * v else v) := by
  obtain ⟨w, wt, rfl⟩ := List.exists_cons_of_ne_nil hne
  have hw : w.length = F := hrows w (List.mem_cons_self w wt)
  unfold colVars
  have hF1 : (((w :: wt).map (rescaleRow j a b)).headD []).length = F := by
    rw [List.map_cons, List.headD_cons, length_rescaleRow, hw]
  have hF2 : (((w :: wt) : List Vec).headD []).length = F := by
    rw [List.headD_cons, hw]
  rw [hF1, hF2]
  apply List.ext_getElem
  · simp [List.length_mapIdx]
  · intro i h1 h2
    have hiF : i < F := by simpa using h1
    rw [List.getElem_map, List.getElem_range, List.getElem_mapIdx,
      List.getElem_map, List.getElem_range]
    by_cases hc : i = j
    · rw [if_pos hc, hc,
        column_rescale_eq (w :: wt) j a b
          (fun v hv => by rw [hrows v hv]; exact hc ▸ hiF),
        colVar_affine]
    · rw [if_neg hc,
        column_rescale_ne (w :: wt) i j a b hc
          (fun v hv => by rw [hrows v hv]; exact hiF)]

/-- Claim C7: for any strictly monotonic positive linear rescaling of a
feature column (x ↦ a·x + b with a > 0 on column j of every row and of the
query), the predictions made after re-standardizing the rescaled data equal
the predictions made on the unscaled (original) data after the same
standardization: standardization cancels positive linear feature
rescalings. -/
theorem predictStd_rescale_invariant (k j : ℕ) (a b : ℚ) (train : List Vec)
    (lbls : List ℕ) (q : Vec) (ha : 0 < a)
    (hrows : ∀ v ∈ train, v.length = q.length) :
    predictStd k (train.map (rescaleRow j a b)) lbls (rescaleRow j a b q) =
      predictStd k train lbls q := by
  have hrows_eq : neighborRowsStd (train.map (rescaleRow j a b)) lbls
      (rescaleRow j a b q) = neighborRowsStd train lbls q := by
    cases htr : train with
    | nil => rfl
    | cons w wt =>
      rw [← htr]
      have hne : train ≠ [] := by rw [htr]; exact List.cons_ne_nil _ _
      unfold neighborRowsStd
      rw [List.length_map]
      apply List.map_congr_left
      intro i hi
      have hi' : i < train.length := List.mem_range.mp hi
      have hdist : stdSqDist (colVars (train.map (rescaleRow j a b)))
          (rescaleRow j a b q) ((train.map (rescaleRow j a b)).getD i []) =
          stdSqDist (colVars train) q (train.getD i []) := by
        rw [getD_map_vec _ _ _ hi',
          colVars_rescale train j a b q.length hne hrows, rescaleRow, rescaleRow]
        exact stdSqDist_rescale a b (ne_of_gt ha) j (colVars train) q
          (train.getD i [])
      rw [hdist]
  rw [predictStd, predictStd, hrows_eq]

/-- Witness for C7: rescaling the single feature by x ↦ 2x + 3 leaves the
standardized prediction unchanged on a concrete two-point training set. -/
theorem predictStd_rescale_invariant_witness :
    predictStd 1 ([[0], [1]].map (rescaleRow 0 2 3)) [4, 5]
      (rescaleRow 0 2 3 [0]) = predictStd 1 [[0], [1]] [4, 5] [0] :=
  predictStd_rescale_invariant 1 0 2 3 [[0], [1]] [4, 5] [0]
    (by norm_num) (by decide)

end KNNSpec
